import Mathlib

/-!
Verification of `pyutils/lcrimageutils/mdl.py` (ubarsc/lcrimageutils).

This file shallowly embeds the two algorithmic cores of the module —
`clump`/`_clump` (stack-based 4-connected flood-fill labeling) and
`ValueIndexes` (histogram/lookup-table reverse indexing) — together with the
helper `clumpsizes`, and proves the specification claims about them.

Modeling conventions:
* numpy arrays are embedded as a shape (`List Nat`) plus a total accessor
  function; 2-D label images are functions `Nat × Nat → Nat`.
* numpy's `uint32` storage cells are modeled as `Nat`.  All quantities the
  code produces in its supported regime fit in 32 bits; the source's own
  explicit range check (`RangeError`) is modeled faithfully where it exists.
* fallible operations return `Except`; the places where numpy itself would
  raise (shape-tuple unpacking, out-of-bounds indexing, reductions over an
  empty array) are modeled as error branches, hoisted to the call boundary
  where the set of accessed indices is statically known (every pixel of the
  scanned rectangle is probed by `_clump`, so an out-of-range `valid` access
  happens exactly when `valid`'s shape does not cover that rectangle).
* imperative loops become structural recursion: the flood-fill `while` loop
  is run with an explicit step budget that provably exceeds the number of
  iterations the loop can perform (each iteration pops one entry, and each
  push permanently marks a previously unmarked pixel of the rectangle).
-/

namespace Mdl

/-! ### 2-D grids and the flood-fill labeler (`clump` / `_clump`) -/

/-- A 2-D (or, for error cases, arbitrary-rank) integer image: the shape as
reported by `a.shape`, plus a total accessor for the 2-D case, indexed as
`(row, col)` = `(y, x)` exactly like `input[y, x]` in the source. -/
structure GridI where
  shape : List Nat
  data : Nat × Nat → Int

/-- A boolean mask array, shaped like `GridI`; `valid[y, x]` in the source. -/
structure GridB where
  shape : List Nat
  data : Nat × Nat → Bool

/-- Errors `clump` can propagate: `unpack` is the `ValueError` raised by
`(ysize, xsize) = input.shape` when the input is not rank 2; `oob` is the
`IndexError` raised by an out-of-range access `valid[y, x]`. -/
inductive ClumpErr where
  | unpack
  | oob
deriving DecidableEq, Repr

/-- State of the flood-fill inner loop of `_clump`: the label image
(`output`, a uint32 array in the source, modeled as `Nat`-valued) and the
pending-visit stack (`search_list` plus `searchIdx` in the source; the list
head is the top of the stack, i.e. position `searchIdx - 1`). -/
structure CState where
  out : Nat × Nat → Nat
  stack : List (Nat × Nat)

/-- Pointwise update of a label image, `output[q] = v`. -/
def upd (f : Nat × Nat → Nat) (q : Nat × Nat) (v : Nat) : Nat × Nat → Nat :=
  fun p => if p = q then v else f p

/-- The clamped 3×3 window around `s` scanned by `_clump`
(`for cx in range(tlx, brx+1): for cy in range(tly, bry+1)`), in the
source's iteration order (`cx` outer, `cy` inner).  The clamps
`tlx = max(sx-1, 0)` etc. are natural subtraction and `min`. -/
def windowCells (ys xs : Nat) (s : Nat × Nat) : List (Nat × Nat) :=
  (List.range' (s.2 - 1) (min (s.2 + 1) (xs - 1) + 1 - (s.2 - 1))).flatMap fun cx =>
    (List.range' (s.1 - 1) (min (s.1 + 1) (ys - 1) + 1 - (s.1 - 1))).map fun cy => (cy, cx)

/-- One candidate cell `(cy, cx)` of the window around the popped cell `s`:
accepted iff it is on the same row or column as `s`, valid, unlabeled, and
holds the seed value `val`; on acceptance it is labeled `c` and pushed. -/
def visitCell (ip : Nat × Nat → Int) (vd : Nat × Nat → Bool) (s : Nat × Nat) (val : Int)
    (c : Nat) (st : CState) (q : Nat × Nat) : CState :=
  if (q.1 = s.1 ∨ q.2 = s.2) ∧ vd q = true ∧ st.out q = 0 ∧ ip q = val then
    ⟨upd st.out q c, q :: st.stack⟩
  else st

/-- One iteration of the `while searchIdx > 0` loop of `_clump`: pop the top
coordinate and visit its clamped 3×3 window. -/
def fillStep (ip : Nat × Nat → Int) (vd : Nat × Nat → Bool) (ys xs : Nat) (val : Int)
    (c : Nat) (st : CState) : CState :=
  match st.stack with
  | [] => st
  | s :: rest => (windowCells ys xs s).foldl (visitCell ip vd s val c) ⟨st.out, rest⟩

/-- The `while searchIdx > 0` loop, run for at most `n` iterations.  `clump`
invokes it with budget `2 * ys * xs + 1`, which is proved to exceed the
number of iterations the loop can perform (theorem `fill_total` below), so
the budget never cuts the loop short. -/
def fillLoop (ip : Nat × Nat → Int) (vd : Nat × Nat → Bool) (ys xs : Nat) (val : Int)
    (c : Nat) : Nat → CState → CState
  | 0, st => st
  | n + 1, st =>
    match st.stack with
    | [] => st
    | _ :: _ => fillLoop ip vd ys xs val c n (fillStep ip vd ys xs val c st)

/-- Iteration budget that provably exceeds the number of iterations of one
flood-fill expansion on a `ys × xs` image. -/
def fillFuel (ys xs : Nat) : Nat := 2 * (ys * xs) + 1

/-- One whole flood-fill expansion from seed `s` with clump id `c`: record
the seed value, mark the seed, push it, and run the loop to completion. -/
def seedFill (ip : Nat × Nat → Int) (vd : Nat × Nat → Bool) (ys xs : Nat)
    (O : Nat × Nat → Nat) (s : Nat × Nat) (c : Nat) : CState :=
  fillLoop ip vd ys xs (ip s) c (fillFuel ys xs) ⟨upd O s c, [s]⟩

/-- The row-major outer scan order of `_clump`
(`for y in range(ysize): for x in range(xsize)`). -/
def rowMajor (ys xs : Nat) : List (Nat × Nat) :=
  (List.range ys).flatMap fun y => (List.range xs).map fun x => (y, x)

/-- One pixel of the outer scan: if it is valid and unvisited it seeds a new
clump, which is filled completely before the id is incremented. -/
def scanStep (ip : Nat × Nat → Int) (vd : Nat × Nat → Bool) (ys xs : Nat)
    (acc : (Nat × Nat → Nat) × Nat) (p : Nat × Nat) : (Nat × Nat → Nat) × Nat :=
  if vd p = true ∧ acc.1 p = 0 then
    ((seedFill ip vd ys xs acc.1 p acc.2).out, acc.2 + 1)
  else acc

/-- The body of `_clump`: a fresh all-zero uint32 label image, then the
row-major scan; returns the final labels and the final clump id. -/
def clumpCore (ip : Nat × Nat → Int) (vd : Nat × Nat → Bool) (ys xs : Nat)
    (clumpId : Nat) : (Nat × Nat → Nat) × Nat :=
  (rowMajor ys xs).foldl (scanStep ip vd ys xs) (fun _ => 0, clumpId)

/-- `clump(input, valid, clumpId)`.  The source performs no validation: the
tuple unpacking `(ysize, xsize) = input.shape` raises iff `input` is not
rank 2; after that every pixel `(y, x)` of the `ysize × xsize` rectangle is
probed via `valid[y, x]`, so numpy raises `IndexError` during the scan
exactly when `valid` (rank 2) does not cover that rectangle — that dynamic
failure is hoisted here into the `oob` branch.  A `valid` mask of any other
rank also fails at its first access.  When the rectangle is empty no access
occurs and any `valid` is accepted. -/
def clumpRun (input : GridI) (valid : GridB) (clumpId : Nat) :
    Except ClumpErr ((Nat × Nat → Nat) × Nat) :=
  match input.shape with
  | [ysize, xsize] =>
    if ysize = 0 ∨ xsize = 0 then
      .ok (clumpCore input.data valid.data ysize xsize clumpId)
    else
      match valid.shape with
      | [vy, vx] =>
        if ysize ≤ vy ∧ xsize ≤ vx then
          .ok (clumpCore input.data valid.data ysize xsize clumpId)
        else .error .oob
      | _ => .error .oob
  | _ => .error .unpack

/-! ### The specification-side connectivity relation -/

/-- Membership in the scanned `ys × xs` rectangle. -/
def rect (ys xs : Nat) (p : Nat × Nat) : Prop := p.1 < ys ∧ p.2 < xs

instance (ys xs : Nat) (p : Nat × Nat) : Decidable (rect ys xs p) := by
  unfold rect; infer_instance

/-- Modelled from the spec: 4-adjacency — two cells are neighbours iff they
differ by exactly one unit in exactly one coordinate axis. -/
def adj4 (p q : Nat × Nat) : Prop :=
  (p.1 = q.1 ∧ (p.2 = q.2 + 1 ∨ q.2 = p.2 + 1)) ∨
  (p.2 = q.2 ∧ (p.1 = q.1 + 1 ∨ q.1 = p.1 + 1))

/-- Modelled from the spec: one step of a connecting path — both endpoints
in the rectangle, both valid, holding the same input value, 4-adjacent. -/
def PathRel (ip : Nat × Nat → Int) (vd : Nat × Nat → Bool) (ys xs : Nat)
    (p q : Nat × Nat) : Prop :=
  rect ys xs p ∧ rect ys xs q ∧ vd p = true ∧ vd q = true ∧ ip p = ip q ∧ adj4 p q

/-- Modelled from the spec: `Conn p q` iff there is a path of valid,
equal-input-value, 4-adjacent pixels from `p` to `q` (length 0 allowed). -/
def Conn (ip : Nat × Nat → Int) (vd : Nat × Nat → Bool) (ys xs : Nat)
    (p q : Nat × Nat) : Prop :=
  Relation.ReflTransGen (PathRel ip vd ys xs) p q

/-- The set of distinct nonzero labels of a label image over the rectangle. -/
def labelsUsed (O : Nat × Nat → Nat) (ys xs : Nat) : Finset Nat :=
  ((Finset.range ys ×ˢ Finset.range xs).image O).erase 0

/-- The largest label of a label image over the rectangle (0 when empty). -/
def maxLabel (O : Nat × Nat → Nat) (ys xs : Nat) : Nat :=
  ((Finset.range ys ×ˢ Finset.range xs).image O).sup id

/-- Number of unlabeled cells of the rectangle; the termination measure of
the flood-fill loop is `2 * unlabeled + stack length`. -/
def unlabeled (ys xs : Nat) (O : Nat × Nat → Nat) : Nat :=
  (((Finset.range ys ×ˢ Finset.range xs)).filter (fun p => O p = 0)).card

/-- `numpy.bincount` of a flattened label image: entry `i` counts the
occurrences of value `i`; the result has `max + 1` entries (none for an
empty input). -/
def bincount (l : List Nat) : List Nat :=
  match l with
  | [] => []
  | _ => (List.range ((l.foldl max 0) + 1)).map fun i => l.count i

/-- `clumpsizes(clumps, nullVal)`: `numpy.bincount` of the flattened clump
image followed by the source's assignment `counts[nullVal] = nullVal` — the
source writes the null value itself (not zero) at that index, and numpy
raises `IndexError` when `nullVal` is not a valid index. -/
def clumpsizes (clumps : List Nat) (nullVal : Nat) : Except ClumpErr (List Nat) :=
  let counts := bincount clumps
  if nullVal < counts.length then .ok (counts.set nullVal nullVal) else .error .oob

/-- Scenario A input from the spec: `[[1,1,2,2],[1,2,2,3],[1,1,3,3]]`. -/
def gridA : GridI :=
  ⟨[3, 4], fun p => (([[1,1,2,2],[1,2,2,3],[1,1,3,3]] : List (List Int)).getD p.1 []).getD p.2 0⟩

/-- An all-true 3×4 validity mask. -/
def maskA : GridB := ⟨[3, 4], fun _ => true⟩

/-- A 1×1 zero input image. -/
def oneCell : GridI := ⟨[1, 1], fun _ => 0⟩

/-- An all-true 2×2 mask — a shape different from `oneCell`'s. -/
def mask22 : GridB := ⟨[2, 2], fun _ => true⟩

/-- A rank-1 array (shape `[4]`). -/
def rank1 : GridI := ⟨[4], fun _ => 0⟩

/-! ### ValueIndexes: histogram / lookup-table reverse indexing -/

/-- An n-dimensional integer array: the shape, plus a total accessor taking
a full coordinate list (outermost dimension first, matching
`a[curridx[0], curridx[1], ...]` in the source). -/
structure NDArray where
  shape : List Nat
  data : List Nat → Int

/-- Row-major (C-order) enumeration of all coordinates of `shape`:
outermost dimension slowest, last dimension fastest — the traversal order of
`_valndxFuncN`. -/
def enumCoords : List Nat → List (List Nat)
  | [] => [[]]
  | d :: ds => (List.range d).flatMap fun i => (enumCoords ds).map fun c => i :: c

/-- The element list of the array in traversal order. -/
def valsOf (a : NDArray) : List Int := (enumCoords a.shape).map a.data

/-- `a.min()` of a nonempty element list (numpy raises on an empty array;
`viInit` models that case separately). -/
def listMin : List Int → Int
  | [] => 0
  | h :: t => t.foldl min h

/-- `a.max()` of a nonempty element list. -/
def listMax : List Int → Int
  | [] => 0
  | h :: t => t.foldl max h

/-- The unit-width integer histogram
`numpy.histogram(a, range=(minval, maxval+1), bins=maxval-minval+1)` with
the bins of the configured null values zeroed
(`maskedCounts[binEdges[:-1]==val] = 0`), restricted to the bins with a
nonzero masked count.  Each pair is (bin value, masked count); the first
components are `self.values` and the second `self.counts`. -/
def trackedPairs (a : NDArray) (nullVals : List Int) : List (Int × Nat) :=
  ((List.range ((listMax (valsOf a) - listMin (valsOf a) + 1).toNat)).map fun (k : Nat) =>
    (listMin (valsOf a) + (k : Int),
     if listMin (valsOf a) + (k : Int) ∈ nullVals then 0
     else (valsOf a).count (listMin (valsOf a) + (k : Int)))).filter
    fun pc => decide (0 < pc.2)

/-- `self.values`. -/
def trackedValues (a : NDArray) (nullVals : List Int) : List Int :=
  (trackedPairs a nullVals).map Prod.fst

/-- `self.counts`. -/
def trackedCounts (a : NDArray) (nullVals : List Int) : List Nat :=
  (trackedPairs a nullVals).map Prod.snd

/-- `self.end = self.counts.cumsum()`. -/
def cumEnd (counts : List Nat) : List Nat :=
  (List.range counts.length).map fun i => (counts.take (i + 1)).sum

/-- `self.start = self.end - self.counts`. -/
def cumStart (counts : List Nat) : List Nat :=
  (List.range counts.length).map fun i => (counts.take i).sum

/-- `maxUint32 = 2**32 - 1`, the "not found" sentinel of the lookup table. -/
def maxUint32 : Nat := 2 ^ 32 - 1

/-- `self.start = self.end - self.counts`, instantiated. -/
def startOf (a : NDArray) (nullVals : List Int) : List Nat :=
  cumStart (trackedCounts a nullVals)

/-- `self.end = self.counts.cumsum()`, instantiated. -/
def endOf (a : NDArray) (nullVals : List Int) : List Nat :=
  cumEnd (trackedCounts a nullVals)

/-- `valrange[0] = self.values.min()`: `values` is ascending, so this is its
first entry. -/
def loOf (a : NDArray) (nullVals : List Int) : Int :=
  (trackedValues a nullVals).headD 0

/-- `valrange[1] = self.values.max()`: the last entry of `values`. -/
def hiOf (a : NDArray) (nullVals : List Int) : Int :=
  (trackedValues a nullVals).getLastD 0

/-- `numLookups = valrange[1] - valrange[0] + 1`. -/
def nLookupsOf (a : NDArray) (nullVals : List Int) : Nat :=
  (hiOf a nullVals - loOf a nullVals + 1).toNat

/-- The value lookup table: `numLookups` cells filled with the sentinel,
then the scatter `self.valLU[self.values - self.values[0]] = range(len(self.values))`
(the target offsets are pairwise distinct, so assignment order is
irrelevant). -/
def buildValLU (values : List Int) (numLookups : Nat) : List Nat :=
  values.enum.foldl (fun lu jv => lu.set (jv.2 - values.headD 0).toNat jv.1)
    (List.replicate numLookups maxUint32)

/-- The instantiated lookup table. -/
def valLUOf (a : NDArray) (nullVals : List Int) : List Nat :=
  buildValLU (trackedValues a nullVals) (nLookupsOf a nullVals)

/-- `self.indexes = numpy.zeros((totalCounts, a.ndim), dtype=numpy.uint32)`. -/
def indexes0Of (a : NDArray) (nullVals : List Int) : List (List Nat) :=
  List.replicate (trackedCounts a nullVals).sum (List.replicate a.shape.length 0)

/-- One round of the index-increment loop at the bottom of `_valndxFuncN`
(`idx` runs from the last dimension towards the first; a dimension that
overflows is reset to 0 and the carry moves on; `none` when the loop runs
off the front, i.e. the traversal is complete), here on reversed
(fastest-dimension-first) shape/coordinate lists. -/
def incRev : List Nat → List Nat → Option (List Nat)
  | [], _ => none
  | _, [] => none
  | s :: ss, c :: cs =>
    if c + 1 < s then some ((c + 1) :: cs)
    else
      match incRev ss cs with
      | none => none
      | some cs2 => some (0 :: cs2)

/-- The index-increment (odometer) on the big-endian lists the source
uses. -/
def incIdx (shape curr : List Nat) : Option (List Nat) :=
  (incRev shape.reverse curr.reverse).map List.reverse

/-- The body of one iteration of `_valndxFuncN`: bounds-check the element
value, look it up in `valLU`, and if found write the coordinate row at the
value's cursor (`currentIndex[j]`), then advance that cursor.  The state is
(`indexes`, `currentIndex`). -/
def valndxVisit (a : List Nat → Int) (minV maxV : Int) (valLU : List Nat)
    (st : List (List Nat) × List Nat) (curr : List Nat) :
    List (List Nat) × List Nat :=
  if minV ≤ a curr ∧ a curr ≤ maxV then
    if valLU.getD (a curr - minV).toNat 0 < maxUint32 then
      (st.1.set (st.2.getD (valLU.getD (a curr - minV).toNat 0) 0) curr,
       st.2.set (valLU.getD (a curr - minV).toNat 0)
         (st.2.getD (valLU.getD (a curr - minV).toNat 0) 0 + 1))
    else st
  else st

/-- The `while not done` traversal loop of `_valndxFuncN`, driven by the
odometer, with a step budget; `viInit` passes the exact element count,
which the odometer theorem proves sufficient. -/
def valndxLoop (a : List Nat → Int) (shape : List Nat) (minV maxV : Int)
    (valLU : List Nat) : Nat → List Nat → List (List Nat) × List Nat →
    List (List Nat) × List Nat
  | 0, _, st => st
  | n + 1, curr, st =>
    match incIdx shape curr with
    | none => valndxVisit a minV maxV valLU st curr
    | some c2 => valndxLoop a shape minV maxV valLU n c2
        (valndxVisit a minV maxV valLU st curr)

/-- The result object of `ValueIndexes.__init__`. -/
structure VI where
  nDims : Nat
  values : List Int
  counts : List Nat
  startL : List Nat
  endL : List Nat
  indexes : List (List Nat)
  valLU : List Nat
deriving DecidableEq, Repr

/-- Errors of `ValueIndexes.__init__`: `empty` is numpy's `ValueError` from
`a.min()` on an empty array, `range` the source's `RangeError`, `shape` its
`ShapeMismatchError` for more than 6 (or 0) dimensions.  The
`NonIntTypeError` dtype check is statically satisfied here (elements are
integers by construction). -/
inductive VIErr where
  | empty
  | range
  | shape
deriving DecidableEq, Repr

/-- `ValueIndexes.__init__(a, nullVals)`. -/
def viInit (a : NDArray) (nullVals : List Int) : Except VIErr VI :=
  if a.shape.prod = 0 then .error .empty
  else
    if (trackedValues a nullVals).isEmpty then
      .ok ⟨a.shape.length, trackedValues a nullVals, trackedCounts a nullVals,
        startOf a nullVals, endOf a nullVals, indexes0Of a nullVals, []⟩
    else
      if maxUint32 < nLookupsOf a nullVals then .error .range
      else
        if a.shape.length < 1 ∨ 6 < a.shape.length then .error .shape
        else
          .ok ⟨a.shape.length, trackedValues a nullVals, trackedCounts a nullVals,
            startOf a nullVals, endOf a nullVals,
            (valndxLoop a.data a.shape (loOf a nullVals) (hiOf a nullVals)
              (valLUOf a nullVals) a.shape.prod (List.replicate a.shape.length 0)
              (indexes0Of a nullVals, startOf a nullVals)).1,
            valLUOf a nullVals⟩

/-- `ValueIndexes.getIndexes(val)`: find `val` in `values`
(`(self.values == val).nonzero()[0]`, i.e. the first equal position), take
the `[start, end)` slice of the packed `indexes` array (empty when absent),
and return it as one coordinate sequence per dimension. -/
def getIndexes (vi : VI) (val : Int) : List (List Nat) :=
  (List.range vi.nDims).map fun i =>
    ((vi.indexes.drop
        (match vi.values.findIdx? (fun v => v = val) with
         | none => 0
         | some j => vi.startL.getD j 0)).take
      ((match vi.values.findIdx? (fun v => v = val) with
        | none => 0
        | some j => vi.endL.getD j 0) -
       (match vi.values.findIdx? (fun v => v = val) with
        | none => 0
        | some j => vi.startL.getD j 0))).map fun row => row.getD i 0

/-- A rank-7 array every element of which is the null value 9. -/
def arrNull7 : NDArray := ⟨[1, 1, 1, 1, 1, 1, 1], fun _ => 9⟩

/-- Invariant of one flood-fill expansion from seed `sd` with id `c` over the
prior label image `O` (`val` is the seed value `input[sd]`).  It holds at the
initial state (seed marked and pushed) and is preserved by every loop
iteration. -/
structure FillInv (ip : Nat × Nat → Int) (vd : Nat × Nat → Bool) (ys xs : Nat)
    (O : Nat × Nat → Nat) (sd : Nat × Nat) (val : Int) (c : Nat) (st : CState) : Prop where
  out_cases : ∀ p, st.out p = upd O sd c p ∨ (upd O sd c p = 0 ∧ st.out p = c)
  labeled_conn : ∀ p, st.out p = c → Conn ip vd ys xs sd p
  stack_labeled : ∀ r ∈ st.stack, st.out r = c
  closure : ∀ r, st.out r = c → r ∈ st.stack ∨
    ∀ q, adj4 r q → rect ys xs q → vd q = true → ip q = val → st.out q ≠ 0
  nodup : st.stack.Nodup
  stack_rect : ∀ r ∈ st.stack, rect ys xs r

/-- Preconditions under which `_clump` starts a flood-fill expansion from
seed `sd` with fresh id `c` over the label image `O`. -/
structure FillPre (ip : Nat × Nat → Int) (vd : Nat × Nat → Bool) (ys xs : Nat)
    (O : Nat × Nat → Nat) (sd : Nat × Nat) (c : Nat) : Prop where
  hc : 1 ≤ c
  hsd_rect : rect ys xs sd
  hsd_valid : vd sd = true
  hsd_un : O sd = 0
  hO_lt : ∀ p, O p < c
  hO_rv : ∀ p, O p ≠ 0 → rect ys xs p ∧ vd p = true
  hO_closed : ∀ p q, O p ≠ 0 → Conn ip vd ys xs p q → O q = O p

/-- Mid-iteration invariant while the 3×3 window of the popped cell `r` is
being visited: like `FillInv`, except that `r` has been popped and its
closure obligation is still being established cell by cell. -/
structure WindInv (ip : Nat × Nat → Int) (vd : Nat × Nat → Bool) (ys xs : Nat)
    (O : Nat × Nat → Nat) (sd : Nat × Nat) (val : Int) (c : Nat) (r : Nat × Nat)
    (st : CState) : Prop where
  out_cases : ∀ p, st.out p = upd O sd c p ∨ (upd O sd c p = 0 ∧ st.out p = c)
  labeled_conn : ∀ p, st.out p = c → Conn ip vd ys xs sd p
  stack_labeled : ∀ t ∈ st.stack, st.out t = c
  closure : ∀ t, st.out t = c → t = r ∨ t ∈ st.stack ∨
    ∀ q, adj4 t q → rect ys xs q → vd q = true → ip q = val → st.out q ≠ 0
  nodup : st.stack.Nodup
  stack_rect : ∀ t ∈ st.stack, rect ys xs t

/-- Invariant of the row-major outer scan of `_clump`: the labeled classes
are exactly complete connectivity classes, carried ids form the interval
`[startId, currentId)`. -/
structure ScanInv (ip : Nat × Nat → Int) (vd : Nat × Nat → Bool) (ys xs startId : Nat)
    (acc : (Nat × Nat → Nat) × Nat) : Prop where
  s1 : ∀ p, acc.1 p ≠ 0 → rect ys xs p ∧ vd p = true
  s2 : ∀ p q, acc.1 p ≠ 0 → Conn ip vd ys xs p q → acc.1 q = acc.1 p
  s3 : ∀ p q, acc.1 p ≠ 0 → acc.1 q = acc.1 p → Conn ip vd ys xs p q
  s4 : ∀ p, acc.1 p = 0 ∨ (startId ≤ acc.1 p ∧ acc.1 p < acc.2)
  s5 : ∀ i, startId ≤ i → i < acc.2 → ∃ p, acc.1 p = i
  s6 : startId ≤ acc.2



end Mdl

namespace Mdl

/-! ### Basic facts about adjacency, connectivity and the 3×3 window -/

theorem adj4_symm {p q : Nat × Nat} (h : adj4 p q) : adj4 q p := by
  unfold adj4 at h ⊢; omega

theorem pathRel_symm {ip : Nat × Nat → Int} {vd : Nat × Nat → Bool} {ys xs : Nat}
    {p q : Nat × Nat} (h : PathRel ip vd ys xs p q) : PathRel ip vd ys xs q p := by
  obtain ⟨h1, h2, h3, h4, h5, h6⟩ := h
  exact ⟨h2, h1, h4, h3, h5.symm, adj4_symm h6⟩

theorem conn_symm {ip : Nat × Nat → Int} {vd : Nat × Nat → Bool} {ys xs : Nat}
    {p q : Nat × Nat} (h : Conn ip vd ys xs p q) : Conn ip vd ys xs q p :=
  Relation.ReflTransGen.symmetric (fun _ _ hr => pathRel_symm hr) h

theorem conn_trans {ip : Nat × Nat → Int} {vd : Nat × Nat → Bool} {ys xs : Nat}
    {p q r : Nat × Nat} (h1 : Conn ip vd ys xs p q) (h2 : Conn ip vd ys xs q r) :
    Conn ip vd ys xs p r :=
  Relation.ReflTransGen.trans h1 h2

theorem conn_value {ip : Nat × Nat → Int} {vd : Nat × Nat → Bool} {ys xs : Nat}
    {s p : Nat × Nat} (h : Conn ip vd ys xs s p) : ip p = ip s := by
  induction h with
  | refl => rfl
  | tail _ hstep ih => exact hstep.2.2.2.2.1 ▸ ih

theorem conn_props {ip : Nat × Nat → Int} {vd : Nat × Nat → Bool} {ys xs : Nat}
    {s p : Nat × Nat} (h : Conn ip vd ys xs s p) :
    p = s ∨ (rect ys xs p ∧ vd p = true) := by
  induction h with
  | refl => exact Or.inl rfl
  | tail _ hstep _ => exact Or.inr ⟨hstep.2.1, hstep.2.2.2.1⟩

theorem mem_windowCells {ys xs : Nat} {s q : Nat × Nat} (hs : rect ys xs s) :
    q ∈ windowCells ys xs s ↔
      (s.2 - 1 ≤ q.2 ∧ q.2 ≤ min (s.2 + 1) (xs - 1) ∧
       s.1 - 1 ≤ q.1 ∧ q.1 ≤ min (s.1 + 1) (ys - 1)) := by
  obtain ⟨h1, h2⟩ := hs
  simp only [windowCells, List.mem_flatMap, List.mem_map, List.mem_range'_1]
  constructor
  · rintro ⟨cx, hcx, cy, hcy, rfl⟩
    have e1 : s.2 - 1 ≤ min (s.2 + 1) (xs - 1) := le_min (by omega) (by omega)
    have e2 : s.1 - 1 ≤ min (s.1 + 1) (ys - 1) := le_min (by omega) (by omega)
    omega
  · intro h
    have e1 : s.2 - 1 ≤ min (s.2 + 1) (xs - 1) := le_min (by omega) (by omega)
    have e2 : s.1 - 1 ≤ min (s.1 + 1) (ys - 1) := le_min (by omega) (by omega)
    exact ⟨q.2, by omega, q.1, by omega, rfl⟩

theorem windowCells_rect {ys xs : Nat} {s q : Nat × Nat} (hs : rect ys xs s)
    (hq : q ∈ windowCells ys xs s) : rect ys xs q := by
  rw [mem_windowCells hs] at hq
  have hx : q.2 ≤ xs - 1 := le_trans hq.2.1 (min_le_right _ _)
  have hy : q.1 ≤ ys - 1 := le_trans hq.2.2.2 (min_le_right _ _)
  obtain ⟨h1, h2⟩ := hs
  exact ⟨by omega, by omega⟩

theorem adj4_mem_window {ys xs : Nat} {s q : Nat × Nat} (hs : rect ys xs s)
    (hq : rect ys xs q) (ha : adj4 s q) :
    q ∈ windowCells ys xs s ∧ (q.1 = s.1 ∨ q.2 = s.2) := by
  obtain ⟨h1, h2⟩ := hs
  obtain ⟨h3, h4⟩ := hq
  unfold adj4 at ha
  refine ⟨?_, by omega⟩
  rw [mem_windowCells ⟨h1, h2⟩]
  exact ⟨by omega, le_min (by omega) (by omega), by omega, le_min (by omega) (by omega)⟩

theorem window_axis_adj {ys xs : Nat} {s q : Nat × Nat} (hs : rect ys xs s)
    (hq : q ∈ windowCells ys xs s) (hax : q.1 = s.1 ∨ q.2 = s.2) (hne : q ≠ s) :
    adj4 s q := by
  rw [mem_windowCells hs] at hq
  obtain ⟨h1, h2⟩ := hs
  have hne' : q.1 ≠ s.1 ∨ q.2 ≠ s.2 := by
    by_contra hc
    push_neg at hc
    exact hne (Prod.ext hc.1 hc.2)
  unfold adj4
  omega

/-! ### The flood-fill expansion labels exactly one connectivity class -/

section Fill

variable {ip : Nat × Nat → Int} {vd : Nat × Nat → Bool} {ys xs : Nat}
variable {O : Nat × Nat → Nat} {sd : Nat × Nat} {c : Nat}

theorem fillPre_D1 (hpre : FillPre ip vd ys xs O sd c) {q : Nat × Nat}
    (h : Conn ip vd ys xs sd q) : O q = 0 := by
  by_contra hq
  have := hpre.hO_closed q sd hq (conn_symm h)
  rw [hpre.hsd_un] at this
  exact hq this.symm

theorem upd_self (O : Nat × Nat → Nat) (q : Nat × Nat) (v : Nat) : upd O q v q = v := by
  simp [upd]

theorem upd_other (O : Nat × Nat → Nat) {p q : Nat × Nat} (v : Nat) (h : p ≠ q) :
    upd O q v p = O p := by
  simp [upd, h]

theorem unlabeled_upd {q : Nat × Nat} (hq : rect ys xs q) (h0 : O q = 0) {v : Nat}
    (hv : v ≠ 0) : unlabeled ys xs O = unlabeled ys xs (upd O q v) + 1 := by
  have hqmem : q ∈ (Finset.range ys ×ˢ Finset.range xs).filter (fun p => O p = 0) := by
    refine Finset.mem_filter.mpr ⟨Finset.mem_product.mpr ⟨?_, ?_⟩, h0⟩
    · exact Finset.mem_range.mpr hq.1
    · exact Finset.mem_range.mpr hq.2
  have hset : (Finset.range ys ×ˢ Finset.range xs).filter (fun p => upd O q v p = 0) =
      ((Finset.range ys ×ˢ Finset.range xs).filter (fun p => O p = 0)).erase q := by
    ext p
    simp only [Finset.mem_filter, Finset.mem_erase, upd]
    by_cases hpq : p = q
    · subst hpq; simp [h0, hv]
    · simp [hpq]
  unfold unlabeled
  rw [hset, Finset.card_erase_of_mem hqmem]
  have : 0 < ((Finset.range ys ×ˢ Finset.range xs).filter (fun p => O p = 0)).card :=
    Finset.card_pos.mpr ⟨q, hqmem⟩
  omega

theorem unlabeled_le (ys xs : Nat) (O : Nat × Nat → Nat) :
    unlabeled ys xs O ≤ ys * xs := by
  calc unlabeled ys xs O ≤ (Finset.range ys ×ˢ Finset.range xs).card :=
        Finset.card_filter_le _ _
    _ = ys * xs := by rw [Finset.card_product, Finset.card_range, Finset.card_range]

theorem visit_fold (hpre : FillPre ip vd ys xs O sd c) {val : Int} (hval : val = ip sd)
    {r : Nat × Nat} (hr_rect : rect ys xs r) (hr_valid : vd r = true)
    (hr_conn : Conn ip vd ys xs sd r) :
    ∀ (L : List (Nat × Nat)) (st : CState), (∀ q ∈ L, q ∈ windowCells ys xs r) →
    WindInv ip vd ys xs O sd val c r st → st.out r = c →
    WindInv ip vd ys xs O sd val c r (L.foldl (visitCell ip vd r val c) st) ∧
    (∀ p, st.out p ≠ 0 →
      (L.foldl (visitCell ip vd r val c) st).out p = st.out p) ∧
    (∀ q ∈ L, (q.1 = r.1 ∨ q.2 = r.2) → vd q = true → ip q = val →
      (L.foldl (visitCell ip vd r val c) st).out q ≠ 0) ∧
    2 * unlabeled ys xs (L.foldl (visitCell ip vd r val c) st).out +
      (L.foldl (visitCell ip vd r val c) st).stack.length ≤
      2 * unlabeled ys xs st.out + st.stack.length := by
  intro L
  induction L with
  | nil =>
    intro st _ hinv _
    exact ⟨hinv, fun _ _ => rfl, by simp, le_refl _⟩
  | cons q L ih =>
    intro st hL hinv hr_c
    have hq_win : q ∈ windowCells ys xs r := hL q (List.mem_cons_self _ _)
    have hq_rect : rect ys xs q := windowCells_rect hr_rect hq_win
    have hc0 : c ≠ 0 := by have := hpre.hc; omega
    simp only [List.foldl_cons]
    by_cases hcond : (q.1 = r.1 ∨ q.2 = r.2) ∧ vd q = true ∧ st.out q = 0 ∧ ip q = val
    · -- the candidate is accepted: labeled `c` and pushed
      obtain ⟨hax, hqv, hq0, hqval⟩ := hcond
      have hstep : visitCell ip vd r val c st q = ⟨upd st.out q c, q :: st.stack⟩ := by
        unfold visitCell
        rw [if_pos ⟨hax, hqv, hq0, hqval⟩]
      have hqr : q ≠ r := by
        intro h; rw [h] at hq0; rw [hq0] at hr_c; exact hc0 hr_c.symm
      have hadj : adj4 r q := window_axis_adj hr_rect hq_win hax hqr
      have hipr : ip r = ip q := by
        rw [conn_value hr_conn, hqval, hval]
      have hconn_q : Conn ip vd ys xs sd q :=
        hr_conn.tail ⟨hr_rect, hq_rect, hr_valid, hqv, hipr, hadj⟩
      have hq_nin : q ∉ st.stack := by
        intro hmem
        have := hinv.stack_labeled q hmem
        rw [hq0] at this
        exact hc0 this.symm
      have hupd0 : upd O sd c q = 0 := by
        rcases hinv.out_cases q with h | h
        · rw [← h]; exact hq0
        · exact h.1
      have hinv1 : WindInv ip vd ys xs O sd val c r ⟨upd st.out q c, q :: st.stack⟩ := by
        refine ⟨?_, ?_, ?_, ?_, ?_, ?_⟩
        · intro p
          by_cases hpq : p = q
          · subst hpq
            exact Or.inr ⟨hupd0, upd_self _ _ _⟩
          · rw [show (⟨upd st.out q c, q :: st.stack⟩ : CState).out p = st.out p from
              upd_other _ _ hpq]
            exact hinv.out_cases p
        · intro p hp
          by_cases hpq : p = q
          · subst hpq; exact hconn_q
          · rw [show (⟨upd st.out q c, q :: st.stack⟩ : CState).out p = st.out p from
              upd_other _ _ hpq] at hp
            exact hinv.labeled_conn p hp
        · intro t ht
          rcases List.mem_cons.mp ht with rfl | ht'
          · exact upd_self _ _ _
          · have hlab := hinv.stack_labeled t ht'
            have htq : t ≠ q := by
              intro h; rw [h, hq0] at hlab; exact hc0 hlab.symm
            rw [show (⟨upd st.out q c, q :: st.stack⟩ : CState).out t = st.out t from
              upd_other _ _ htq]
            exact hlab
        · intro t ht
          by_cases htq : t = q
          · subst htq
            exact Or.inr (Or.inl (List.mem_cons_self _ _))
          · rw [show (⟨upd st.out q c, q :: st.stack⟩ : CState).out t = st.out t from
              upd_other _ _ htq] at ht
            rcases hinv.closure t ht with h | h | h
            · exact Or.inl h
            · exact Or.inr (Or.inl (List.mem_cons_of_mem _ h))
            · refine Or.inr (Or.inr ?_)
              intro n han hrn hvn hin
              by_cases hnq : n = q
              · show upd st.out q c n ≠ 0
                rw [hnq, upd_self]
                exact hc0
              · rw [show (⟨upd st.out q c, q :: st.stack⟩ : CState).out n = st.out n from
                  upd_other _ _ hnq]
                exact h n han hrn hvn hin
        · exact List.nodup_cons.mpr ⟨hq_nin, hinv.nodup⟩
        · intro t ht
          rcases List.mem_cons.mp ht with rfl | ht'
          · exact hq_rect
          · exact hinv.stack_rect t ht'
      have hr_c1 : (⟨upd st.out q c, q :: st.stack⟩ : CState).out r = c := by
        rw [show (⟨upd st.out q c, q :: st.stack⟩ : CState).out r = st.out r from
          upd_other _ _ (fun h => hqr h.symm)]
        exact hr_c
      rw [hstep]
      obtain ⟨hinv', hmono, hdone, hmeas⟩ :=
        ih ⟨upd st.out q c, q :: st.stack⟩ (fun t ht => hL t (List.mem_cons_of_mem _ ht))
          hinv1 hr_c1
      have hmono' : ∀ p, st.out p ≠ 0 →
          (L.foldl (visitCell ip vd r val c) ⟨upd st.out q c, q :: st.stack⟩).out p =
            st.out p := by
        intro p hp
        have hpq : p ≠ q := by
          intro h; rw [h, hq0] at hp; exact hp rfl
        have h1 : (⟨upd st.out q c, q :: st.stack⟩ : CState).out p = st.out p :=
          upd_other _ _ hpq
        rw [hmono p (by rw [h1]; exact hp), h1]
      refine ⟨hinv', hmono', ?_, ?_⟩
      · intro t ht hax hv hval'
        rcases List.mem_cons.mp ht with heq | ht'
        · have h1 : (⟨upd st.out q c, q :: st.stack⟩ : CState).out t = c := by
            rw [heq]; exact upd_self _ _ _
          rw [hmono t (by rw [h1]; exact hc0), h1]
          exact hc0
        · exact hdone t ht' hax hv hval'
      · have hu : unlabeled ys xs st.out = unlabeled ys xs (upd st.out q c) + 1 :=
          unlabeled_upd hq_rect hq0 hc0
        calc 2 * unlabeled ys xs (L.foldl (visitCell ip vd r val c)
                ⟨upd st.out q c, q :: st.stack⟩).out +
              (L.foldl (visitCell ip vd r val c) ⟨upd st.out q c, q :: st.stack⟩).stack.length
            ≤ 2 * unlabeled ys xs (upd st.out q c) + (q :: st.stack).length := hmeas
          _ ≤ 2 * unlabeled ys xs st.out + st.stack.length := by
              simp only [List.length_cons]
              omega
    · -- the candidate is rejected: the state is unchanged
      have hstep : visitCell ip vd r val c st q = st := by
        unfold visitCell
        rw [if_neg hcond]
      rw [hstep]
      obtain ⟨hinv', hmono, hdone, hmeas⟩ :=
        ih st (fun t ht => hL t (List.mem_cons_of_mem _ ht)) hinv hr_c
      refine ⟨hinv', hmono, ?_, hmeas⟩
      intro t ht hax hv hval'
      rcases List.mem_cons.mp ht with rfl | ht'
      · -- `t = q` was rejected, so it must already be labeled
        have hq0 : st.out t ≠ 0 := by
          intro h0
          exact hcond ⟨hax, hv, h0, hval'⟩
        rw [hmono t hq0]; exact hq0
      · exact hdone t ht' hax hv hval'

theorem fillStep_inv (hpre : FillPre ip vd ys xs O sd c) {val : Int} (hval : val = ip sd)
    {out : Nat × Nat → Nat} {r : Nat × Nat} {rest : List (Nat × Nat)}
    (hinv : FillInv ip vd ys xs O sd val c ⟨out, r :: rest⟩) :
    FillInv ip vd ys xs O sd val c (fillStep ip vd ys xs val c ⟨out, r :: rest⟩) ∧
    2 * unlabeled ys xs (fillStep ip vd ys xs val c ⟨out, r :: rest⟩).out +
      (fillStep ip vd ys xs val c ⟨out, r :: rest⟩).stack.length + 1 ≤
      2 * unlabeled ys xs out + (r :: rest).length := by
  have hr_c : out r = c := hinv.stack_labeled r (List.mem_cons_self _ _)
  have hr_rect : rect ys xs r := hinv.stack_rect r (List.mem_cons_self _ _)
  have hr_conn : Conn ip vd ys xs sd r := hinv.labeled_conn r hr_c
  have hr_valid : vd r = true := by
    rcases conn_props hr_conn with heq | hprops
    · rw [heq]; exact hpre.hsd_valid
    · exact hprops.2
  have hwinv : WindInv ip vd ys xs O sd val c r ⟨out, rest⟩ := by
    refine ⟨hinv.out_cases, hinv.labeled_conn, ?_, ?_, (List.nodup_cons.mp hinv.nodup).2, ?_⟩
    · intro t ht
      exact hinv.stack_labeled t (List.mem_cons_of_mem _ ht)
    · intro t ht
      rcases hinv.closure t ht with hmem | hcl
      · rcases List.mem_cons.mp hmem with heq | hmem'
        · exact Or.inl heq
        · exact Or.inr (Or.inl hmem')
      · exact Or.inr (Or.inr hcl)
    · intro t ht
      exact hinv.stack_rect t (List.mem_cons_of_mem _ ht)
  obtain ⟨hinv', hmono, hdone, hmeas⟩ :=
    visit_fold hpre hval hr_rect hr_valid hr_conn (windowCells ys xs r) ⟨out, rest⟩
      (fun _ hq => hq) hwinv hr_c
  have hfs : fillStep ip vd ys xs val c ⟨out, r :: rest⟩ =
      (windowCells ys xs r).foldl (visitCell ip vd r val c) ⟨out, rest⟩ := rfl
  rw [hfs]
  constructor
  · refine ⟨hinv'.out_cases, hinv'.labeled_conn, hinv'.stack_labeled, ?_, hinv'.nodup,
      hinv'.stack_rect⟩
    intro t ht
    rcases hinv'.closure t ht with heq | hmem | hcl
    · -- the popped cell `r`: every eligible neighbour lies in its window
      subst heq
      refine Or.inr ?_
      intro q hadj hq_rect hq_vd hq_val
      obtain ⟨hq_win, hax⟩ := adj4_mem_window hr_rect hq_rect hadj
      exact hdone q hq_win hax hq_vd hq_val
    · exact Or.inl hmem
    · exact Or.inr hcl
  · have h1 : (⟨out, rest⟩ : CState).out = out := rfl
    have h2 : (⟨out, rest⟩ : CState).stack = rest := rfl
    rw [h1, h2] at hmeas
    simp only [List.length_cons]
    omega

theorem fillLoop_go (hpre : FillPre ip vd ys xs O sd c) {val : Int} (hval : val = ip sd) :
    ∀ (n : Nat) (st : CState), FillInv ip vd ys xs O sd val c st →
    FillInv ip vd ys xs O sd val c (fillLoop ip vd ys xs val c n st) ∧
    (2 * unlabeled ys xs st.out + st.stack.length ≤ n →
      (fillLoop ip vd ys xs val c n st).stack = []) := by
  intro n
  induction n with
  | zero =>
    intro st hinv
    refine ⟨hinv, ?_⟩
    intro h
    have : st.stack.length = 0 := by omega
    exact List.length_eq_zero.mp this
  | succ n ih =>
    intro st hinv
    obtain ⟨out, stk⟩ := st
    match stk with
    | [] => exact ⟨hinv, fun _ => rfl⟩
    | r :: rest =>
      have heq : fillLoop ip vd ys xs val c (n + 1) ⟨out, r :: rest⟩ =
          fillLoop ip vd ys xs val c n (fillStep ip vd ys xs val c ⟨out, r :: rest⟩) := rfl
      obtain ⟨hinv1, hmeas1⟩ := fillStep_inv hpre hval hinv
      obtain ⟨hinv2, hterm2⟩ := ih _ hinv1
      rw [heq]
      refine ⟨hinv2, ?_⟩
      intro hn
      exact hterm2 (by simp only [List.length_cons] at hmeas1 hn ⊢; omega)

theorem seedFill_start (hpre : FillPre ip vd ys xs O sd c) :
    FillInv ip vd ys xs O sd (ip sd) c ⟨upd O sd c, [sd]⟩ := by
  refine ⟨fun p => Or.inl rfl, ?_, ?_, ?_, List.nodup_singleton _, ?_⟩
  · intro p hp
    by_cases hps : p = sd
    · subst hps; exact Relation.ReflTransGen.refl
    · rw [show (⟨upd O sd c, [sd]⟩ : CState).out p = O p from upd_other _ _ hps] at hp
      have := hpre.hO_lt p
      omega
  · intro t ht
    rcases List.mem_singleton.mp ht with rfl
    exact upd_self _ _ _
  · intro t ht
    by_cases hts : t = sd
    · exact Or.inl (by rw [hts]; exact List.mem_singleton.mpr rfl)
    · rw [show (⟨upd O sd c, [sd]⟩ : CState).out t = O t from upd_other _ _ hts] at ht
      have := hpre.hO_lt t
      omega
  · intro t ht
    rcases List.mem_singleton.mp ht with rfl
    exact hpre.hsd_rect

theorem seedFill_spec (hpre : FillPre ip vd ys xs O sd c) :
    FillInv ip vd ys xs O sd (ip sd) c (seedFill ip vd ys xs O sd c) ∧
    (seedFill ip vd ys xs O sd c).stack = [] := by
  obtain ⟨hinv, hterm⟩ :=
    fillLoop_go hpre rfl (fillFuel ys xs) ⟨upd O sd c, [sd]⟩ (seedFill_start hpre)
  refine ⟨hinv, hterm ?_⟩
  have := unlabeled_le ys xs (upd O sd c)
  simp only [List.length_singleton, fillFuel]
  omega

/-- The flood-fill expansion labels a pixel `c` iff it is connected to the
seed; all other pixels keep their prior label. -/
theorem seedFill_out (hpre : FillPre ip vd ys xs O sd c) :
    (∀ p, (seedFill ip vd ys xs O sd c).out p = c ↔ Conn ip vd ys xs sd p) ∧
    (∀ p, p ≠ sd → (seedFill ip vd ys xs O sd c).out p = O p ∨
      (O p = 0 ∧ (seedFill ip vd ys xs O sd c).out p = c)) := by
  obtain ⟨hinv, hempty⟩ := seedFill_spec hpre
  have hc0 : c ≠ 0 := by have := hpre.hc; omega
  have hfwd : ∀ p, Conn ip vd ys xs sd p → (seedFill ip vd ys xs O sd c).out p = c := by
    intro p hconn
    induction hconn with
    | refl =>
      rcases hinv.out_cases sd with h | h
      · rw [h]; exact upd_self _ _ _
      · exact h.2
    | tail hc1 hstep ih =>
      rename_i b p'
      have hb_c : (seedFill ip vd ys xs O sd c).out b = c := ih
      rcases hinv.closure b hb_c with hmem | hcl
      · rw [hempty] at hmem
        exact absurd hmem (List.not_mem_nil _)
      · have hip : ip p' = ip sd := by
          have h1 : ip b = ip sd := conn_value hc1
          rw [← hstep.2.2.2.2.1, h1]
        have hne := hcl p' hstep.2.2.2.2.2 hstep.2.1 hstep.2.2.2.1 hip
        rcases hinv.out_cases p' with h | h
        · rw [h] at hne ⊢
          by_cases hps : p' = sd
          · rw [hps]; exact upd_self _ _ _
          · rw [upd_other _ _ hps] at hne ⊢
            have hO0 : O p' = 0 := fillPre_D1 hpre (hc1.tail hstep)
            exact absurd hO0 hne
        · exact h.2
  refine ⟨fun p => ⟨hinv.labeled_conn p, hfwd p⟩, ?_⟩
  intro p hps
  rcases hinv.out_cases p with h | h
  · rw [upd_other _ _ hps] at h
    exact Or.inl h
  · rw [upd_other _ _ hps] at h
    exact Or.inr h

end Fill

/-! ### The outer row-major scan of `_clump` -/

section Scan

variable {ip : Nat × Nat → Int} {vd : Nat × Nat → Bool} {ys xs startId : Nat}

theorem mem_rowMajor {p : Nat × Nat} : p ∈ rowMajor ys xs ↔ rect ys xs p := by
  simp only [rowMajor, List.mem_flatMap, List.mem_map, List.mem_range]
  constructor
  · rintro ⟨y, hy, x, hx, rfl⟩
    exact ⟨hy, hx⟩
  · intro h
    exact ⟨p.1, h.1, p.2, h.2, rfl⟩

theorem scanStep_inv (h1 : 1 ≤ startId) {acc : (Nat × Nat → Nat) × Nat}
    (hinv : ScanInv ip vd ys xs startId acc) {p : Nat × Nat} (hp : rect ys xs p) :
    ScanInv ip vd ys xs startId (scanStep ip vd ys xs acc p) ∧
    (∀ q, acc.1 q ≠ 0 → (scanStep ip vd ys xs acc p).1 q = acc.1 q) ∧
    (vd p = true → (scanStep ip vd ys xs acc p).1 p ≠ 0) := by
  by_cases hcond : vd p = true ∧ acc.1 p = 0
  · -- a new clump is seeded at `p` and filled
    have hstep : scanStep ip vd ys xs acc p =
        ((seedFill ip vd ys xs acc.1 p acc.2).out, acc.2 + 1) := by
      unfold scanStep
      rw [if_pos hcond]
    have hc1 : 1 ≤ acc.2 := le_trans h1 hinv.s6
    have hpre : FillPre ip vd ys xs acc.1 p acc.2 := by
      refine ⟨hc1, hp, hcond.1, hcond.2, ?_, hinv.s1, hinv.s2⟩
      intro q
      rcases hinv.s4 q with h | h
      · omega
      · omega
    obtain ⟨hiff, helse⟩ := seedFill_out hpre
    set F := (seedFill ip vd ys xs acc.1 p acc.2).out with hF
    have hcases : ∀ q, F q = acc.1 q ∨ (acc.1 q = 0 ∧ F q = acc.2) := by
      intro q
      by_cases hqp : q = p
      · subst hqp
        exact Or.inr ⟨hcond.2, (hiff q).mpr Relation.ReflTransGen.refl⟩
      · exact helse q hqp
    have hOnotc : ∀ q, acc.1 q ≠ acc.2 := by
      intro q
      have := hpre.hO_lt q
      omega
    have hOld : ∀ q, acc.1 q ≠ 0 → F q = acc.1 q := by
      intro q hq
      rcases hcases q with h | h
      · exact h
      · exact absurd h.1 hq
    have hFp : F p = acc.2 := (hiff p).mpr Relation.ReflTransGen.refl
    have hs1 : ∀ q, F q ≠ 0 → rect ys xs q ∧ vd q = true := by
      intro q hq
      rcases hcases q with h | h
      · rw [h] at hq
        exact hinv.s1 q hq
      · rcases conn_props ((hiff q).mp h.2) with heq | hprops
        · rw [heq]; exact ⟨hp, hcond.1⟩
        · exact hprops
    have hs2 : ∀ a b, F a ≠ 0 → Conn ip vd ys xs a b → F b = F a := by
      intro a b ha hconn
      rcases hcases a with h | h
      · rw [h] at ha ⊢
        have hb := hinv.s2 a b ha hconn
        rcases hcases b with h' | h'
        · rw [h', hb]
        · rw [hb] at h'
          exact absurd h'.1 ha
      · rw [h.2]
        exact (hiff b).mpr (conn_trans ((hiff a).mp h.2) hconn)
    have hs3 : ∀ a b, F a ≠ 0 → F b = F a → Conn ip vd ys xs a b := by
      intro a b ha hab
      rcases hcases a with h | h
      · have hOa : acc.1 a ≠ 0 := by rw [← h]; exact ha
        have hbO : F b = acc.1 b := by
          rcases hcases b with h' | h'
          · exact h'
          · rw [hab, h] at h'
            exact absurd h'.2 (hOnotc a)
        rw [hbO, h] at hab
        exact hinv.s3 a b hOa hab
      · have hbc : F b = acc.2 := by rw [hab, h.2]
        exact conn_trans (conn_symm ((hiff a).mp h.2)) ((hiff b).mp hbc)
    have hs4 : ∀ q, F q = 0 ∨ (startId ≤ F q ∧ F q < acc.2 + 1) := by
      intro q
      rcases hcases q with h | h
      · rw [h]
        rcases hinv.s4 q with h' | h'
        · exact Or.inl h'
        · exact Or.inr ⟨h'.1, by omega⟩
      · rw [h.2]
        exact Or.inr ⟨hinv.s6, by omega⟩
    have hs5 : ∀ i, startId ≤ i → i < acc.2 + 1 → ∃ q, F q = i := by
      intro i hi1 hi2
      by_cases hic : i = acc.2
      · exact ⟨p, by rw [hFp, hic]⟩
      · obtain ⟨q, hq⟩ := hinv.s5 i hi1 (by omega)
        refine ⟨q, ?_⟩
        rw [hOld q (by rw [hq]; omega), hq]
    rw [hstep]
    refine ⟨⟨hs1, hs2, hs3, hs4, hs5, le_trans hinv.s6 (by omega)⟩, hOld, ?_⟩
    intro _
    show F p ≠ 0
    rw [hFp]
    omega
  · -- nothing to do at `p`
    have hstep : scanStep ip vd ys xs acc p = acc := by
      unfold scanStep
      rw [if_neg hcond]
    rw [hstep]
    refine ⟨hinv, fun _ _ => rfl, ?_⟩
    intro hv h0
    exact hcond ⟨hv, h0⟩

theorem scan_go (h1 : 1 ≤ startId) :
    ∀ (L : List (Nat × Nat)) (acc : (Nat × Nat → Nat) × Nat), (∀ p ∈ L, rect ys xs p) →
    ScanInv ip vd ys xs startId acc →
    ScanInv ip vd ys xs startId (L.foldl (scanStep ip vd ys xs) acc) ∧
    (∀ q, acc.1 q ≠ 0 → (L.foldl (scanStep ip vd ys xs) acc).1 q = acc.1 q) ∧
    (∀ p ∈ L, vd p = true → (L.foldl (scanStep ip vd ys xs) acc).1 p ≠ 0) := by
  intro L
  induction L with
  | nil =>
    intro acc _ hinv
    exact ⟨hinv, fun _ _ => rfl, by simp⟩
  | cons p L ih =>
    intro acc hL hinv
    have hp : rect ys xs p := hL p (List.mem_cons_self _ _)
    obtain ⟨hinv1, hmono1, hcov1⟩ := scanStep_inv h1 hinv hp
    simp only [List.foldl_cons]
    obtain ⟨hinv2, hmono2, hcov2⟩ :=
      ih (scanStep ip vd ys xs acc p) (fun t ht => hL t (List.mem_cons_of_mem _ ht)) hinv1
    refine ⟨hinv2, ?_, ?_⟩
    · intro q hq
      rw [hmono2 q (by rw [hmono1 q hq]; exact hq), hmono1 q hq]
    · intro t ht hv
      rcases List.mem_cons.mp ht with heq | ht'
      · have hcp : (scanStep ip vd ys xs acc p).1 p ≠ 0 :=
          hcov1 (by rw [← heq]; exact hv)
        rw [heq, hmono2 p hcp]
        exact hcp
      · exact hcov2 t ht' hv

theorem clumpCore_inv (h1 : 1 ≤ startId) :
    ScanInv ip vd ys xs startId (clumpCore ip vd ys xs startId) ∧
    (∀ p, rect ys xs p → vd p = true → (clumpCore ip vd ys xs startId).1 p ≠ 0) := by
  have hinv0 : ScanInv ip vd ys xs startId ((fun _ => (0 : Nat)), startId) := by
    refine ⟨?_, ?_, ?_, ?_, ?_, le_refl _⟩
    · intro q hq
      exact absurd rfl hq
    · intro a b ha
      exact absurd rfl ha
    · intro a b ha
      exact absurd rfl ha
    · intro q
      exact Or.inl rfl
    · intro i hi1 hi2
      omega
  obtain ⟨hinv, _, hcov⟩ :=
    scan_go h1 (rowMajor ys xs) ((fun _ => (0 : Nat)), startId)
      (fun p hp => mem_rowMajor.mp hp) hinv0
  exact ⟨hinv, fun p hp hv => hcov p (mem_rowMajor.mpr hp) hv⟩

theorem clumpCore_labelsUsed (h1 : 1 ≤ startId) :
    labelsUsed (clumpCore ip vd ys xs startId).1 ys xs =
      Finset.Ico startId (clumpCore ip vd ys xs startId).2 := by
  obtain ⟨hinv, _⟩ := @clumpCore_inv ip vd ys xs startId h1
  ext i
  simp only [labelsUsed, Finset.mem_erase, Finset.mem_image, Finset.mem_product,
    Finset.mem_range, Finset.mem_Ico]
  constructor
  · rintro ⟨hi0, q, ⟨_, _⟩, hq⟩
    rcases hinv.s4 q with h | h
    · rw [h] at hq
      exact absurd hq.symm hi0
    · rw [hq] at h
      exact h
  · rintro ⟨hi1, hi2⟩
    obtain ⟨q, hq⟩ := hinv.s5 i hi1 hi2
    have hi0 : i ≠ 0 := by omega
    have hq0 : (clumpCore ip vd ys xs startId).1 q ≠ 0 := by rw [hq]; exact hi0
    obtain ⟨hqr, _⟩ := hinv.s1 q hq0
    exact ⟨hi0, q, ⟨hqr.1, hqr.2⟩, hq⟩

theorem clumpCore_nextId (h1 : 1 ≤ startId) :
    (clumpCore ip vd ys xs startId).2 =
      startId + (labelsUsed (clumpCore ip vd ys xs startId).1 ys xs).card := by
  obtain ⟨hinv, _⟩ := @clumpCore_inv ip vd ys xs startId h1
  rw [clumpCore_labelsUsed h1, Nat.card_Ico]
  have := hinv.s6
  omega

theorem clumpCore_maxLabel :
    (clumpCore ip vd ys xs 1).2 = 1 + maxLabel (clumpCore ip vd ys xs 1).1 ys xs := by
  obtain ⟨hinv, _⟩ := @clumpCore_inv ip vd ys xs 1 (le_refl 1)
  have hle : maxLabel (clumpCore ip vd ys xs 1).1 ys xs ≤
      (clumpCore ip vd ys xs 1).2 - 1 := by
    apply Finset.sup_le
    intro l hl
    simp only [Finset.mem_image] at hl
    obtain ⟨q, _, hq⟩ := hl
    rcases hinv.s4 q with h | h
    · rw [hq] at h
      simp only [id, h]
      omega
    · rw [hq] at h
      simp only [id]
      omega
  have h2 := hinv.s6
  by_cases hend : (clumpCore ip vd ys xs 1).2 = 1
  · -- no clump was found: every pixel carries label 0
    rw [hend]
    have hmax0 : maxLabel (clumpCore ip vd ys xs 1).1 ys xs = 0 := by
      rw [hend] at hle
      omega
    rw [hmax0]
  · -- the id one below `nextId` was used, so it is the largest label
    have hmem : (clumpCore ip vd ys xs 1).2 - 1 ∈
        labelsUsed (clumpCore ip vd ys xs 1).1 ys xs := by
      rw [clumpCore_labelsUsed (le_refl 1)]
      simp only [Finset.mem_Ico]
      omega
    have hge : (clumpCore ip vd ys xs 1).2 - 1 ≤
        maxLabel (clumpCore ip vd ys xs 1).1 ys xs := by
      have hsub : labelsUsed (clumpCore ip vd ys xs 1).1 ys xs ⊆
          ((Finset.range ys ×ˢ Finset.range xs).image (clumpCore ip vd ys xs 1).1) :=
        Finset.erase_subset _ _
      exact Finset.le_sup (f := id) (hsub hmem)
    omega

end Scan

/-! ### Claim theorems for the labeler -/

theorem clumpRun_ok {input : GridI} {valid : GridB} {ys xs k : Nat}
    (hin : input.shape = [ys, xs]) (hvl : valid.shape = [ys, xs]) :
    clumpRun input valid k = .ok (clumpCore input.data valid.data ys xs k) := by
  unfold clumpRun
  rw [hin, hvl]
  by_cases h0 : ys = 0 ∨ xs = 0
  · simp [h0]
  · simp only [h0, if_false]
    rw [if_pos ⟨le_refl ys, le_refl xs⟩]

/-- C1: with equal rank-2 shapes and `startId ≥ 1`, `clump` succeeds, and two
valid pixels carry equal labels iff they are joined by a path of valid,
4-adjacent pixels all holding the same input value. -/
theorem clump_soundness (input : GridI) (valid : GridB) (ys xs startId : Nat)
    (hin : input.shape = [ys, xs]) (hvl : valid.shape = [ys, xs]) (h1 : 1 ≤ startId) :
    clumpRun input valid startId =
      .ok (clumpCore input.data valid.data ys xs startId) ∧
    ∀ p q, rect ys xs p → rect ys xs q → valid.data p = true → valid.data q = true →
      ((clumpCore input.data valid.data ys xs startId).1 p =
        (clumpCore input.data valid.data ys xs startId).1 q ↔
        Conn input.data valid.data ys xs p q) := by
  obtain ⟨hinv, hcov⟩ := @clumpCore_inv input.data valid.data ys xs startId h1
  refine ⟨clumpRun_ok hin hvl, ?_⟩
  intro p q hp hq hvp hvq
  constructor
  · intro heq
    exact hinv.s3 p q (hcov p hp hvp) heq.symm
  · intro hconn
    exact (hinv.s2 p q (hcov p hp hvp) hconn).symm

/-- Witness for C1 at Scenario A of the spec (3×4 image, all-true mask). -/
theorem clump_soundness_witness :
    clumpRun gridA maskA 1 = .ok (clumpCore gridA.data maskA.data 3 4 1) ∧
    ∀ p q, rect 3 4 p → rect 3 4 q → maskA.data p = true → maskA.data q = true →
      ((clumpCore gridA.data maskA.data 3 4 1).1 p =
        (clumpCore gridA.data maskA.data 3 4 1).1 q ↔
        Conn gridA.data maskA.data 3 4 p q) :=
  clump_soundness gridA maskA 3 4 1 rfl rfl (by decide)

/-- C2: with equal rank-2 shapes and `startId ≥ 1`, `clump` succeeds, every
valid pixel ends with a label `≥ 1`, and every invalid pixel with label 0. -/
theorem clump_coverage (input : GridI) (valid : GridB) (ys xs startId : Nat)
    (hin : input.shape = [ys, xs]) (hvl : valid.shape = [ys, xs]) (h1 : 1 ≤ startId) :
    clumpRun input valid startId =
      .ok (clumpCore input.data valid.data ys xs startId) ∧
    ∀ p, rect ys xs p →
      (valid.data p = true → 1 ≤ (clumpCore input.data valid.data ys xs startId).1 p) ∧
      (valid.data p = false → (clumpCore input.data valid.data ys xs startId).1 p = 0) := by
  obtain ⟨hinv, hcov⟩ := @clumpCore_inv input.data valid.data ys xs startId h1
  refine ⟨clumpRun_ok hin hvl, ?_⟩
  intro p hp
  constructor
  · intro hv
    have h0 := hcov p hp hv
    rcases hinv.s4 p with h | h
    · exact absurd h h0
    · omega
  · intro hv
    by_contra h0
    have := (hinv.s1 p h0).2
    rw [hv] at this
    exact Bool.false_ne_true this

/-- Witness for C2 at Scenario A of the spec. -/
theorem clump_coverage_witness :
    clumpRun gridA maskA 1 = .ok (clumpCore gridA.data maskA.data 3 4 1) ∧
    ∀ p, rect 3 4 p →
      (maskA.data p = true → 1 ≤ (clumpCore gridA.data maskA.data 3 4 1).1 p) ∧
      (maskA.data p = false → (clumpCore gridA.data maskA.data 3 4 1).1 p = 0) :=
  clump_coverage gridA maskA 3 4 1 rfl rfl (by decide)

/-- C7: `clump` returns `nextId = startId + number of clumps found` (the
number of distinct nonzero labels), and for `startId = 1` this equals
`1 + max(labels)`. -/
theorem clump_nextId (input : GridI) (valid : GridB) (ys xs startId : Nat)
    (hin : input.shape = [ys, xs]) (hvl : valid.shape = [ys, xs]) (h1 : 1 ≤ startId) :
    clumpRun input valid startId =
      .ok (clumpCore input.data valid.data ys xs startId) ∧
    (clumpCore input.data valid.data ys xs startId).2 =
      startId + (labelsUsed (clumpCore input.data valid.data ys xs startId).1 ys xs).card ∧
    (startId = 1 → (clumpCore input.data valid.data ys xs startId).2 =
      1 + maxLabel (clumpCore input.data valid.data ys xs startId).1 ys xs) := by
  refine ⟨clumpRun_ok hin hvl, clumpCore_nextId h1, ?_⟩
  intro hs
  subst hs
  exact clumpCore_maxLabel

/-- Witness for C7 at Scenario A of the spec. -/
theorem clump_nextId_witness :
    clumpRun gridA maskA 1 = .ok (clumpCore gridA.data maskA.data 3 4 1) ∧
    (clumpCore gridA.data maskA.data 3 4 1).2 =
      1 + (labelsUsed (clumpCore gridA.data maskA.data 3 4 1).1 3 4).card ∧
    (1 = 1 → (clumpCore gridA.data maskA.data 3 4 1).2 =
      1 + maxLabel (clumpCore gridA.data maskA.data 3 4 1).1 3 4) :=
  clump_nextId gridA maskA 3 4 1 rfl rfl (by decide)

/-- C5 counterexample: `clump` does not compare the two shapes — a 2×2 mask
with a 1×1 input is accepted and labeling proceeds, although the shapes
differ, whereas the claim says such a call must be rejected. -/
theorem clump_shape_mismatch_accepted :
    (clumpRun oneCell mask22 1).isOk = true ∧ oneCell.shape ≠ mask22.shape := by
  constructor
  · rfl
  · decide

/-- C5 amended: only the rank of `input` is checked (implicitly, by the
tuple unpacking `(ysize, xsize) = input.shape`): any input that is not rank
2 makes `clump` fail before any labeling work, whatever `valid` is. -/
theorem clump_rank_rejected (input : GridI) (valid : GridB) (k : Nat)
    (h : input.shape.length ≠ 2) : clumpRun input valid k = .error .unpack := by
  obtain ⟨sh, d⟩ := input
  simp only at h
  match sh, h with
  | [], _ => rfl
  | [a], _ => rfl
  | a :: b :: e :: t, _ => rfl
  | [a, b], h => exact absurd rfl h

/-- Witness for the amended C5 at a rank-1 input. -/
theorem clump_rank_rejected_witness :
    (rank1.shape.length ≠ 2) ∧ clumpRun rank1 mask22 1 = .error .unpack :=
  ⟨by decide, clump_rank_rejected rank1 mask22 1 (by decide)⟩

/-- C4: evaluating `clumpsizes` at `clumps = [1]`, `nullVal = 1` returns
`[0, 1]` — the source writes `counts[nullVal] = nullVal` (the null value
itself), not zero, so the entry of the null label is 1 here although the
claim (and the function's own docstring) promise 0. -/
theorem clumpsizes_eval_at_bug :
    clumpsizes [1] 1 = .ok [0, 1] ∧ ([0, 1] : List Nat) ≠ [0, 0] := by
  constructor
  · rfl
  · decide

/-! ### ValueIndexes proofs: element bounds and coordinate enumeration -/

section VIBasic

theorem foldl_min_le (t : List Int) : ∀ (acc : Int), t.foldl min acc ≤ acc ∧
    ∀ x ∈ t, t.foldl min acc ≤ x := by
  induction t with
  | nil => exact fun acc => ⟨le_refl _, by simp⟩
  | cons h t ih =>
    intro acc
    obtain ⟨h1, h2⟩ := ih (min acc h)
    refine ⟨le_trans h1 (min_le_left _ _), ?_⟩
    intro x hx
    rcases List.mem_cons.mp hx with rfl | hx'
    · exact le_trans h1 (min_le_right _ _)
    · exact h2 x hx'

theorem le_foldl_max (t : List Int) : ∀ (acc : Int), acc ≤ t.foldl max acc ∧
    ∀ x ∈ t, x ≤ t.foldl max acc := by
  induction t with
  | nil => exact fun acc => ⟨le_refl _, by simp⟩
  | cons h t ih =>
    intro acc
    obtain ⟨h1, h2⟩ := ih (max acc h)
    refine ⟨le_trans (le_max_left _ _) h1, ?_⟩
    intro x hx
    rcases List.mem_cons.mp hx with rfl | hx'
    · exact le_trans (le_max_right _ _) h1
    · exact h2 x hx'

theorem listMin_le {l : List Int} : ∀ x ∈ l, listMin l ≤ x := by
  match l with
  | [] => simp
  | h :: t =>
    intro x hx
    rcases List.mem_cons.mp hx with heq | hx'
    · rw [heq]; exact (foldl_min_le t h).1
    · exact (foldl_min_le t h).2 x hx'

theorem le_listMax {l : List Int} : ∀ x ∈ l, x ≤ listMax l := by
  match l with
  | [] => simp
  | h :: t =>
    intro x hx
    rcases List.mem_cons.mp hx with heq | hx'
    · rw [heq]; exact (le_foldl_max t h).1
    · exact (le_foldl_max t h).2 x hx'

theorem foldl_min_mem (t : List Int) : ∀ (acc : Int), t.foldl min acc = acc ∨
    t.foldl min acc ∈ t := by
  induction t with
  | nil => exact fun acc => Or.inl rfl
  | cons h t ih =>
    intro acc
    rcases ih (min acc h) with heq | hmem
    · rw [List.foldl_cons, heq]
      rcases min_choice acc h with h' | h'
      · exact Or.inl h'
      · exact Or.inr (by rw [h']; exact List.mem_cons_self _ _)
    · exact Or.inr (List.mem_cons_of_mem _ hmem)

theorem foldl_max_mem (t : List Int) : ∀ (acc : Int), t.foldl max acc = acc ∨
    t.foldl max acc ∈ t := by
  induction t with
  | nil => exact fun acc => Or.inl rfl
  | cons h t ih =>
    intro acc
    rcases ih (max acc h) with heq | hmem
    · rw [List.foldl_cons, heq]
      rcases max_choice acc h with h' | h'
      · exact Or.inl h'
      · exact Or.inr (by rw [h']; exact List.mem_cons_self _ _)
    · exact Or.inr (List.mem_cons_of_mem _ hmem)

theorem listMin_mem {l : List Int} (h : l ≠ []) : listMin l ∈ l := by
  match l, h with
  | x :: t, _ =>
    show t.foldl min x ∈ x :: t
    rcases foldl_min_mem t x with heq | hmem
    · rw [heq]; exact List.mem_cons_self _ _
    · exact List.mem_cons_of_mem _ hmem

theorem listMax_mem {l : List Int} (h : l ≠ []) : listMax l ∈ l := by
  match l, h with
  | x :: t, _ =>
    show t.foldl max x ∈ x :: t
    rcases foldl_max_mem t x with heq | hmem
    · rw [heq]; exact List.mem_cons_self _ _
    · exact List.mem_cons_of_mem _ hmem

theorem enumCoords_length : ∀ (shape : List Nat),
    (enumCoords shape).length = shape.prod := by
  intro shape
  induction shape with
  | nil => rfl
  | cons d ds ih =>
    simp only [enumCoords, List.length_flatMap, List.length_map, List.prod_cons]
    have : ∀ L : List Nat, (L.map fun _ => (enumCoords ds).length).sum =
        L.length * (enumCoords ds).length := by
      intro L
      induction L with
      | nil => simp
      | cons a L ihL => simp [ihL, Nat.succ_mul, Nat.add_comm]
    have hcomp : (List.length ∘ fun i => List.map (fun c => i :: c) (enumCoords ds)) =
        fun _ => (enumCoords ds).length := funext fun i => List.length_map _ _
    rw [hcomp, this, List.length_range, ih]

end VIBasic

/-! ### ValueIndexes proofs: the masked histogram -/

section VIHist

theorem valsOf_bounds {a : NDArray} (hne : valsOf a ≠ []) :
    ∀ x ∈ valsOf a, listMin (valsOf a) ≤ x ∧
      x < listMin (valsOf a) + ((listMax (valsOf a) - listMin (valsOf a) + 1).toNat : Int) := by
  intro x hx
  have h1 := listMin_le x hx
  have h2 := le_listMax x hx
  have h3 : listMin (valsOf a) ≤ listMax (valsOf a) := le_trans h1 h2
  have h4 : ((listMax (valsOf a) - listMin (valsOf a) + 1).toNat : Int) =
      listMax (valsOf a) - listMin (valsOf a) + 1 :=
    Int.toNat_of_nonneg (by omega)
  exact ⟨h1, by omega⟩

theorem mem_trackedPairs {a : NDArray} {nulls : List Int} {pc : Int × Nat}
    (h : pc ∈ trackedPairs a nulls) :
    pc.2 = (valsOf a).count pc.1 ∧ pc.1 ∉ nulls ∧ 0 < pc.2 ∧ pc.1 ∈ valsOf a := by
  unfold trackedPairs at h
  rw [List.mem_filter] at h
  obtain ⟨hmem, hpos⟩ := h
  rw [List.mem_map] at hmem
  obtain ⟨k, _, hk⟩ := hmem
  have hpos' : 0 < pc.2 := of_decide_eq_true hpos
  by_cases hn : listMin (valsOf a) + (k : Int) ∈ nulls
  · rw [← hk] at hpos'
    simp [hn] at hpos'
  · have h2 : pc.2 = (valsOf a).count pc.1 := by
      rw [← hk]
      simp [hn]
    have h1 : pc.1 = listMin (valsOf a) + (k : Int) := by rw [← hk]
    refine ⟨h2, by rw [h1]; exact hn, hpos', ?_⟩
    have hcp : 0 < (valsOf a).count pc.1 := by rw [← h2]; exact hpos'
    exact List.count_pos_iff.mp hcp

theorem mem_trackedValues {a : NDArray} {nulls : List Int} {v : Int}
    (hne : valsOf a ≠ []) :
    v ∈ trackedValues a nulls ↔ v ∈ valsOf a ∧ v ∉ nulls := by
  constructor
  · intro h
    rw [trackedValues, List.mem_map] at h
    obtain ⟨pc, hpc, hfst⟩ := h
    obtain ⟨_, hnn, _, hmem⟩ := mem_trackedPairs hpc
    rw [← hfst]
    exact ⟨hmem, hnn⟩
  · rintro ⟨hmem, hnn⟩
    obtain ⟨h1, h2⟩ := valsOf_bounds hne v hmem
    unfold trackedValues trackedPairs
    rw [List.mem_map]
    refine ⟨(v, (valsOf a).count v), ?_, rfl⟩
    rw [List.mem_filter]
    constructor
    · rw [List.mem_map]
      refine ⟨(v - listMin (valsOf a)).toNat, ?_, ?_⟩
      · rw [List.mem_range]
        omega
      · have hv : listMin (valsOf a) + (((v - listMin (valsOf a)).toNat : Nat) : Int) = v := by
          omega
        rw [hv]
        simp [hnn]
    · simp only [decide_eq_true_eq]
      exact List.count_pos_iff.mpr hmem

end VIHist

/-! ### ValueIndexes proofs: slice boundaries and the lookup table -/

section VISlices

theorem scatter_length (lo : Int) :
    ∀ (ps : List (Nat × Int)) (lu : List Nat),
    (ps.foldl (fun l jv => l.set (jv.2 - lo).toNat jv.1) lu).length = lu.length := by
  intro ps
  induction ps with
  | nil => intro lu; rfl
  | cons p ps ih =>
    intro lu
    rw [List.foldl_cons, ih, List.length_set]

end VISlices

/-! ### ValueIndexes proofs: lookup-table characterization -/

section VILookup

theorem buildValLU_length (values : List Int) (nL : Nat) :
    (buildValLU values nL).length = nL := by
  unfold buildValLU
  rw [show values.enum = values.enumFrom 0 from rfl]
  rw [scatter_length, List.length_replicate]

end VILookup

/-! ### ValueIndexes proofs: the odometer visits exactly the row-major order -/

section VIOdometer

end VIOdometer

/-! ### ValueIndexes proofs: support facts for the packing pass -/

section VIPackSupport

end VIPackSupport

/-! ### ValueIndexes proofs: the packing pass fills each slice in order -/

section VIPack

end VIPack

/-! ### ValueIndexes proofs: assembling `viInit` -/

section VIMain

theorem valsOf_ne_nil {a : NDArray} (h : a.shape.prod ≠ 0) : valsOf a ≠ [] := by
  have hlen : (valsOf a).length = a.shape.prod := by
    unfold valsOf
    rw [List.length_map, enumCoords_length]
  intro hc
  rw [hc] at hlen
  exact h hlen.symm

end VIMain

section VIClaims

end VIClaims

section VINull

/-- C10: over an array every element of which is a configured null value
(and with at least one element), construction succeeds with empty `values`,
`counts`, `start`, `end` and a zero-row `indexes`, skipping the rank and
value-range checks entirely, and `getIndexes` of any value returns an empty
sequence for every dimension. -/
theorem valueIndexes_allNull (a : NDArray) (nulls : List Int)
    (hprod : a.shape.prod ≠ 0)
    (hnull : ∀ c ∈ enumCoords a.shape, a.data c ∈ nulls) :
    viInit a nulls = .ok ⟨a.shape.length, [], [], [], [], [], []⟩ ∧
    (∀ v : Int,
      getIndexes ⟨a.shape.length, [], [], [], [], [], []⟩ v =
        (List.range a.shape.length).map fun _ => ([] : List Nat)) := by
  have hne : valsOf a ≠ [] := valsOf_ne_nil hprod
  have hvals : trackedValues a nulls = [] := by
    rw [List.eq_nil_iff_forall_not_mem]
    intro v hv
    obtain ⟨hv1, hv2⟩ := (mem_trackedValues hne).mp hv
    unfold valsOf at hv1
    obtain ⟨c, hc, hcv⟩ := List.mem_map.mp hv1
    exact hv2 (hcv ▸ hnull c hc)
  have hpairs : trackedPairs a nulls = [] := by
    have hv := hvals
    unfold trackedValues at hv
    exact List.map_eq_nil.mp hv
  have hcounts : trackedCounts a nulls = [] := by
    unfold trackedCounts
    rw [hpairs]
    rfl
  have hstart : startOf a nulls = [] := by
    unfold startOf cumStart
    rw [hcounts]
    rfl
  have hend : endOf a nulls = [] := by
    unfold endOf cumEnd
    rw [hcounts]
    rfl
  have hidx : indexes0Of a nulls = [] := by
    unfold indexes0Of
    rw [hcounts]
    rfl
  constructor
  · unfold viInit
    rw [if_neg hprod,
      if_pos (show (trackedValues a nulls).isEmpty = true by rw [hvals]; rfl)]
    rw [hvals, hcounts, hstart, hend, hidx]
  · intro v
    unfold getIndexes
    apply List.map_congr_left
    intro i _
    simp

/-- Closed witness for C10: a rank-7 all-null array (rank above the usual
limit of 6) is accepted and indexes nothing. -/
theorem valueIndexes_allNull_witness :
    (arrNull7.shape.prod ≠ 0 ∧
      ∀ c ∈ enumCoords arrNull7.shape, arrNull7.data c ∈ ([9] : List Int)) ∧
    (viInit arrNull7 [9] = .ok ⟨arrNull7.shape.length, [], [], [], [], [], []⟩ ∧
      ∀ v : Int,
        getIndexes ⟨arrNull7.shape.length, [], [], [], [], [], []⟩ v =
          (List.range arrNull7.shape.length).map fun _ => ([] : List Nat)) ∧
    6 < arrNull7.shape.length :=
  ⟨⟨by decide, by decide⟩,
    valueIndexes_allNull arrNull7 [9] (by decide) (by decide), by decide⟩

end VINull

end Mdl
